import Mathlib

/-!
Verification of the scooter-intake bot (`handlers.py`, `config.py`, `reports.py`).

Text is modelled as `List Char`.  Python's `re` scanning for the concrete
patterns of `config.py` is embedded by purpose-built matchers together with a
generic leftmost, non-overlapping scanner (`findAll` / `subAll`): every pattern
of the program starts with `\b` followed by a word character and ends with a
digit followed by `\b`, which the scanner exploits.  Word characters are
modelled as ASCII alphanumerics, underscore and the Cyrillic block, matching
Python's `\w` on every character the program can meet in its alphabets.
-/

namespace Sharing

/-- Cyrillic block U+0400..U+04FF (covers А-я and Ё/ё). -/
def isCyrChar (c : Char) : Bool := 0x400 ≤ c.toNat && c.toNat ≤ 0x4FF

/-- Python `\w` restricted to the alphabets the program uses. -/
def isWordChar (c : Char) : Bool := c.isAlphanum || c == '_' || isCyrChar c

/-- Python `\s`. -/
def isSpaceChar (c : Char) : Bool :=
  c == ' ' || c == '\t' || c == '\n' || c == '\r' || c.toNat == 0x0b || c.toNat == 0x0c

/-- Lower/upper case pairs for ASCII letters and the Cyrillic alphabet:
the case folding used by Python's `str.lower` / `str.upper` and by
`re.IGNORECASE` on the characters occurring in the program's patterns. -/
def casePairs : List (Char × Char) :=
  [('a', 'A'), ('b', 'B'), ('c', 'C'), ('d', 'D'), ('e', 'E'), ('f', 'F'),
   ('g', 'G'), ('h', 'H'), ('i', 'I'), ('j', 'J'), ('k', 'K'), ('l', 'L'),
   ('m', 'M'), ('n', 'N'), ('o', 'O'), ('p', 'P'), ('q', 'Q'), ('r', 'R'),
   ('s', 'S'), ('t', 'T'), ('u', 'U'), ('v', 'V'), ('w', 'W'), ('x', 'X'),
   ('y', 'Y'), ('z', 'Z'),
   ('а', 'А'), ('б', 'Б'), ('в', 'В'), ('г', 'Г'), ('д', 'Д'), ('е', 'Е'),
   ('ж', 'Ж'), ('з', 'З'), ('и', 'И'), ('й', 'Й'), ('к', 'К'), ('л', 'Л'),
   ('м', 'М'), ('н', 'Н'), ('о', 'О'), ('п', 'П'), ('р', 'Р'), ('с', 'С'),
   ('т', 'Т'), ('у', 'У'), ('ф', 'Ф'), ('х', 'Х'), ('ц', 'Ц'), ('ч', 'Ч'),
   ('ш', 'Ш'), ('щ', 'Щ'), ('ъ', 'Ъ'), ('ы', 'Ы'), ('ь', 'Ь'), ('э', 'Э'),
   ('ю', 'Ю'), ('я', 'Я'), ('ё', 'Ё')]

/-- `str.lower` on one character. -/
def lowerChar (c : Char) : Char :=
  match casePairs.find? (fun p => p.2 == c) with
  | some p => p.1
  | none => c

/-- `str.upper` on one character. -/
def upperChar (c : Char) : Char :=
  match casePairs.find? (fun p => p.1 == c) with
  | some p => p.2
  | none => c

/-- Decimal digit characters, most significant first (fuel-structural so the
kernel can evaluate it). -/
def digitChar (d : Nat) : Char :=
  match d with
  | 0 => '0' | 1 => '1' | 2 => '2' | 3 => '3' | 4 => '4'
  | 5 => '5' | 6 => '6' | 7 => '7' | 8 => '8' | _ => '9'

def natDigitsGo : Nat → Nat → List Char
  | 0, _ => []
  | fuel + 1, n =>
    if n < 10 then [digitChar n]
    else natDigitsGo fuel (n / 10) ++ [digitChar (n % 10)]

/-- Python `str(n)` for a natural number. -/
def natDigits (n : Nat) : List Char := natDigitsGo (n + 1) n

/-- Numeric value of a digit string — Python `int(s)` for `s` matching `\d+`. -/
def digitsToNat (ds : List Char) : Nat :=
  ds.foldl (fun n c => n * 10 + (c.toNat - 48)) 0

/-! ### Generic leftmost scanner

A matcher takes the text from the current position and returns the captured
value plus the number of characters the whole match consumes (≥ 1 for all
patterns of the program).  `\b` in front of a pattern whose first character is
a word character is equivalent to "previous character is not a word character",
which the scanner tracks; after a match the previous character is the last
matched one, always a digit (hence a word character) for every pattern here. -/

def scanAux {α : Type} (m : List Char → Option (α × Nat)) :
    Nat → Bool → List Char → List α
  | 0, _, _ => []
  | fuel + 1, prevW, cs =>
    match cs with
    | [] => []
    | c :: rest =>
      match (if prevW then none else m cs) with
      | some an => an.1 :: scanAux m fuel true (List.drop (an.2 - 1) rest)
      | none => scanAux m fuel (isWordChar c) rest

/-- Python `pattern.findall(text)` for the program's patterns. -/
def findAll {α : Type} (m : List Char → Option (α × Nat)) (cs : List Char) : List α :=
  scanAux m cs.length false cs

def subAux {α : Type} (m : List Char → Option (α × Nat)) :
    Nat → Bool → List Char → List Char
  | 0, _, cs => cs
  | fuel + 1, prevW, cs =>
    match cs with
    | [] => []
    | c :: rest =>
      match (if prevW then none else m cs) with
      | some an => subAux m fuel true (List.drop (an.2 - 1) rest)
      | none => c :: subAux m fuel (isWordChar c) rest

/-- Python `pattern.sub('', text)` for the program's patterns. -/
def subAll {α : Type} (m : List Char → Option (α × Nat)) (cs : List Char) : List Char :=
  subAux m cs.length false cs

/-! ### The concrete matchers of `config.py` -/

/-- Take exactly `k` decimal digits. -/
def takeDigits : Nat → List Char → Option (List Char × List Char)
  | 0, cs => some ([], cs)
  | _ + 1, [] => none
  | k + 1, c :: cs =>
    if c.isDigit then (takeDigits k cs).map (fun p => (c :: p.1, p.2)) else none

/-- Maximal run of characters satisfying `p` (greedy `+`/`*`). -/
def takeRun (p : Char → Bool) : List Char → List Char × List Char
  | [] => ([], [])
  | c :: rest =>
    if p c then
      let r := takeRun p rest
      (c :: r.1, r.2)
    else ([], c :: rest)

/-- Trailing `\b` after a digit: next character absent or not a word character. -/
def boundaryOk : List Char → Bool
  | [] => true
  | c :: _ => !isWordChar c

/-- `[A-ZА-Я]` with `re.IGNORECASE`. -/
def isWhooshLetter (c : Char) : Bool :=
  ('A' ≤ c && c ≤ 'Z') || ('a' ≤ c && c ≤ 'z') || ('А' ≤ c && c ≤ 'Я') || ('а' ≤ c && c ≤ 'я')

/-- `YANDEX_SCOOTER_PATTERN = \b(\d{8})\b` at the current position. -/
def matchYandex (cs : List Char) : Option (List Char × Nat) :=
  (takeDigits 8 cs).bind fun p => if boundaryOk p.2 then some (p.1, 8) else none

/-- `WOOSH_SCOOTER_PATTERN = \b([A-ZА-Я]{2}\d{4})\b` (IGNORECASE). -/
def matchWhoosh (cs : List Char) : Option (List Char × Nat) :=
  match cs with
  | c1 :: c2 :: rest =>
    if isWhooshLetter c1 && isWhooshLetter c2 then
      (takeDigits 4 rest).bind fun p =>
        if boundaryOk p.2 then some (c1 :: c2 :: p.1, 6) else none
    else none
  | _ => none

/-- Second alternative `\d{3}-\d{3}` of the Jet pattern. -/
def matchJetDash (cs : List Char) : Option (List Char × Nat) :=
  (takeDigits 3 cs).bind fun p1 =>
    match p1.2 with
    | '-' :: rest2 =>
      (takeDigits 3 rest2).bind fun p2 =>
        if boundaryOk p2.2 then some (p1.1 ++ '-' :: p2.1, 7) else none
    | _ => none

/-- `JET_SCOOTER_PATTERN = \b(\d{6}|\d{3}-\d{3})\b`, alternatives in order. -/
def matchJet (cs : List Char) : Option (List Char × Nat) :=
  match takeDigits 6 cs with
  | some p => if boundaryOk p.2 then some (p.1, 6) else matchJetDash cs
  | none => matchJetDash cs

/-- `BOLT_SCOOTER_PATTERN = \b(\d{4})\b`. -/
def matchBolt (cs : List Char) : Option (List Char × Nat) :=
  (takeDigits 4 cs).bind fun p => if boundaryOk p.2 then some (p.1, 4) else none

/-- Case-insensitive literal alias match; captures the original characters. -/
def matchAliasLower : List Char → List Char → Option (List Char × List Char)
  | [], rest => some ([], rest)
  | _ :: _, [] => none
  | a :: al, c :: cs =>
    if lowerChar c == a then
      (matchAliasLower al cs).map (fun p => (c :: p.1, p.2))
    else none

/-- Alternatives of `BATCH_QUANTITY_PATTERN`, in the pattern's order. -/
def batchAliases : List (List Char) :=
  ["whoosh".data, "jet".data, "bolt".data, "yandex".data,
   "вуш".data, "джет".data, "болт".data, "яндекс".data,
   "w".data, "j".data, "b".data, "y".data]

def matchBatchFrom : List (List Char) → List Char → Option ((List Char × List Char) × Nat)
  | [], _ => none
  | al :: als, cs =>
    match matchAliasLower al cs with
    | some (cap, rest) =>
      let sp := takeRun isSpaceChar rest
      let ds := takeRun Char.isDigit sp.2
      if !sp.1.isEmpty && !ds.1.isEmpty && boundaryOk ds.2 then
        some ((cap, ds.1), cap.length + sp.1.length + ds.1.length)
      else matchBatchFrom als cs
    | none => matchBatchFrom als cs

/-- `BATCH_QUANTITY_PATTERN = \b(whoosh|jet|bolt|yandex|вуш|джет|болт|яндекс|w|j|b|y)\s+(\d+)\b`
(IGNORECASE); captures `(service token, quantity digits)`. -/
def matchBatch (cs : List Char) : Option ((List Char × List Char) × Nat) :=
  matchBatchFrom batchAliases cs

/-! ### Extraction engine (`process_scooter_text` of `handlers.py`)

The calls `datetime.datetime.now(TIMEZONE).strftime('%H%M%S%f')` made while
generating placeholder numbers are modelled by a token stream `toks : Nat →
List Char`, the `k`-th call returning `toks k`; the message's shared timestamp
string `now_localized_str` is the parameter `nowStr`. -/

inductive Service where
  | yandex
  | whoosh
  | jet
  | bolt
deriving DecidableEq, Repr

/-- Canonical service names, the keys of the `patterns` dict of the source. -/
def serviceName : Service → List Char
  | .yandex => "Яндекс".data
  | .whoosh => "Whoosh".data
  | .jet => "Jet".data
  | .bolt => "Bolt".data

/-- `SERVICE_ALIASES.get(token)` for an already lowercased token. -/
def serviceAliasLookup (s : List Char) : Option Service :=
  if s = "yandex".data ∨ s = "яндекс".data ∨ s = "y".data then some .yandex
  else if s = "whoosh".data ∨ s = "вуш".data ∨ s = "w".data then some .whoosh
  else if s = "jet".data ∨ s = "джет".data ∨ s = "j".data then some .jet
  else if s = "bolt".data ∨ s = "болт".data ∨ s = "b".data then some .bolt
  else none

/-- One row appended to `records_to_insert` (the user and chat columns are
constant over a message and omitted). -/
structure ScooterRec where
  ident : List Char
  service : Service
  ts : List Char
deriving DecidableEq, Repr

/-- `service.upper()`. -/
def serviceNameUpper (s : Service) : List Char := (serviceName s).map upperChar

/-- `f"{service.upper()}_BATCH_{now.strftime('%H%M%S%f')}_{i+1}"` where `k`
counts the `now()` calls of the pass and `j = i + 1`. -/
def placeholderIdent (toks : Nat → List Char) (s : Service) (k j : Nat) : List Char :=
  serviceNameUpper s ++ "_BATCH_".data ++ toks k ++ "_".data ++ natDigits j

def placeholderRec (toks : Nat → List Char) (nowStr : List Char) (s : Service)
    (k j : Nat) : ScooterRec :=
  ⟨placeholderIdent toks s k j, s, nowStr⟩

/-- Processing of one `(service_raw, quantity_str)` entry of `batch_matches`:
the emitted placeholder records and the advanced call counter. -/
def expandBatch (toks : Nat → List Char) (nowStr : List Char) (ctr : Nat)
    (m : List Char × List Char) : List ScooterRec × Nat :=
  match serviceAliasLookup (m.1.map lowerChar) with
  | none => ([], ctr)
  | some s =>
    let q := digitsToNat m.2
    if 0 < q ∧ q ≤ 200 then
      ((List.range q).map fun i => placeholderRec toks nowStr s (ctr + i) (i + 1), ctr + q)
    else ([], ctr)

/-- The bulk pass: the loop over `batch_matches` in source order. -/
def runBatchesAux (toks : Nat → List Char) (nowStr : List Char) :
    List (List Char × List Char) → Nat → List ScooterRec
  | [], _ => []
  | m :: ms, ctr =>
    let p := expandBatch toks nowStr ctr m
    p.1 ++ runBatchesAux toks nowStr ms p.2

/-- `num.replace('-', '').upper()`. -/
def normalizeId (cs : List Char) : List Char :=
  (cs.filter (fun c => c ≠ '-')).map upperChar

/-- The `patterns` dict of `handlers.py`, in insertion order. -/
def servicePatterns : List (Service × (List Char → Option (List Char × Nat))) :=
  [(.yandex, matchYandex), (.whoosh, matchWhoosh), (.jet, matchJet), (.bolt, matchBolt)]

/-- Inner loop over one pattern's `findall` results: state is
`(records_to_insert, processed_numbers)` (the set kept as a list). -/
def addNumsAux (nowStr : List Char) (s : Service) :
    List (List Char) → List ScooterRec × List (List Char) → List ScooterRec × List (List Char)
  | [], st => st
  | num :: nums, st =>
    let c := normalizeId num
    if c ∈ st.2 then addNumsAux nowStr s nums st
    else addNumsAux nowStr s nums (st.1 ++ [⟨c, s, nowStr⟩], st.2 ++ [c])

def individualPassAux (nowStr : List Char) :
    List (Service × (List Char → Option (List Char × Nat))) → List Char →
    List ScooterRec × List (List Char) → List ScooterRec × List (List Char)
  | [], _, st => st
  | sp :: ps, text, st =>
    individualPassAux nowStr ps text (addNumsAux nowStr sp.1 (findAll sp.2 text) st)

/-- The individual pass over `text_for_numbers`. -/
def individualPass (nowStr : List Char) (text : List Char) : List ScooterRec :=
  (individualPassAux nowStr servicePatterns text ([], [])).1

/-- `BATCH_QUANTITY_PATTERN.findall(text_to_process)`. -/
def batchMatches (text : List Char) : List (List Char × List Char) :=
  findAll matchBatch text

/-- `text_for_numbers` after the bulk pass: the matched bulk substrings are
removed whenever `batch_matches` is non-empty. -/
def textForNumbers (text : List Char) : List Char :=
  if batchMatches text = [] then text else subAll matchBatch text

/-- The record list produced by one call of `process_scooter_text`. -/
def process_scooter_text (toks : Nat → List Char) (nowStr text : List Char) :
    List ScooterRec :=
  runBatchesAux toks nowStr (batchMatches text) 0 ++ individualPass nowStr (textForNumbers text)

/-! ### Shift window calculator (`get_shift_time_range` of `handlers.py`)

Civil time in the fixed timezone is modelled as minutes since an epoch;
`day * 1440 + m` is minute `m` of day `day`.  The `pytz.localize` wrappers are
identities here: all compared datetimes live in the one fixed zone. -/

structure ShiftRange where
  start : Nat
  stop : Nat
  label : String
deriving DecidableEq, Repr

def get_shift_time_range (now : Nat) : ShiftRange :=
  let day := now / 1440
  let morningStart := day * 1440 + 420
  let morningEnd := day * 1440 + 900
  let eveningStart := day * 1440 + 900
  let eveningEnd := day * 1440 + 1380
  if morningStart ≤ now ∧ now < morningEnd then
    ⟨morningStart, morningEnd, "утреннюю смену"⟩
  else if eveningStart ≤ now ∧ now < eveningEnd then
    ⟨eveningStart, eveningEnd, "вечернюю смену"⟩
  else
    let nightCutoff := day * 1440 + 240
    if day * 1440 ≤ now ∧ now < nightCutoff then
      ⟨(day - 1) * 1440 + 900, nightCutoff, "вечернюю смену (с учетом ночных часов)"⟩
    else if 23 ≤ now % 1440 / 60 then
      ⟨eveningStart, eveningEnd, "вечернюю смену"⟩
    else
      ⟨morningStart, morningEnd, "утреннюю смену (еще не началась)"⟩

/-! ### Aggregation / report builder

One fetched row, restricted to the columns the summaries read.  Python
truthiness of the optional `username` / `fullname` strings is `≠ []`. -/

structure AggRec where
  service : Service
  userId : Nat
  username : List Char
  fullname : List Char
deriving DecidableEq, Repr

/-- The four services in increasing order of `serviceName` (Python's string
order: "Bolt" < "Jet" < "Whoosh" < "Яндекс"); `sorted(d.items())` over a dict
keyed by service names enumerates exactly the present ones in this order. -/
def servicesSorted : List Service := [.bolt, .jet, .whoosh, .yandex]

def countService (rs : List AggRec) (s : Service) : Nat :=
  rs.countP (fun r => r.service == s)

/-- `sorted(service_totals.items())` of `today_stats_handler`. -/
def serviceTotalsSummary (rs : List AggRec) : List (Service × Nat) :=
  (servicesSorted.filter (fun s => decide (0 < countService rs s))).map
    (fun s => (s, countService rs s))

/-- Keys of a Python dict in insertion order: first occurrences. -/
def firstOccur : List Nat → List Nat
  | [] => []
  | x :: xs => x :: (firstOccur xs).filter (fun y => y ≠ x)

/-- `f"@{username}" if username else fullname` — the chat display name of
`today_stats_handler`. -/
def chatDisplay (username fullname : List Char) : List Char :=
  if username ≠ [] then '@' :: username else fullname

/-- `user_info[user_id]`, set at the first record of the user. -/
def chatDisplayOf (rs : List AggRec) (uid : Nat) : List Char :=
  match rs.find? (fun r => r.userId == uid) with
  | some r => chatDisplay r.username r.fullname
  | none => []

def countUserService (rs : List AggRec) (uid : Nat) (s : Service) : Nat :=
  rs.countP (fun r => r.userId == uid && r.service == s)

def countUser (rs : List AggRec) (uid : Nat) : Nat :=
  rs.countP (fun r => r.userId == uid)

/-- `sorted(user_stats[user_id].items())`. -/
def userServiceCounts (rs : List AggRec) (uid : Nat) : List (Service × Nat) :=
  (servicesSorted.filter (fun s => decide (0 < countUserService rs uid s))).map
    (fun s => (s, countUserService rs uid s))

/-- The per-user part of `today_stats_handler`'s reply: one entry per user in
dict insertion order (first appearance), carrying display name, the sorted
service counts and the user's total. -/
def chatSummary (rs : List AggRec) : List (List Char × List (Service × Nat) × Nat) :=
  (firstOccur (rs.map (fun r => r.userId))).map
    (fun uid => (chatDisplayOf rs uid, userServiceCounts rs uid, countUser rs uid))

/-- `fullname if fullname else (f"@{username}" if username else f"ID: {user_id}")`
— the display name of `create_excel_report`. -/
def excelDisplay (uid : Nat) (username fullname : List Char) : List Char :=
  if fullname ≠ [] then fullname
  else if username ≠ [] then '@' :: username
  else "ID: ".data ++ natDigits uid

/-- `user_info_map_summary[user_id]`: overwritten by every record, so the last
record of the user wins. -/
def excelDisplayOf (rs : List AggRec) (uid : Nat) : List Char :=
  match rs.reverse.find? (fun r => r.userId == uid) with
  | some r => excelDisplay uid r.username r.fullname
  | none => []

/-- `user_info_map_summary[user_id].lower()`, the key of the Python `sorted`. -/
def excelKey (rs : List AggRec) (uid : Nat) : List Char :=
  (excelDisplayOf rs uid).map lowerChar

/-- The "Итоги" sheet of `create_excel_report`: per-user totals with user ids
sorted (stably) by the case-folded display name. -/
def excelUserTotals (rs : List AggRec) : List (List Char × Nat) :=
  (List.insertionSort (fun a b => excelKey rs a ≤ excelKey rs b)
      (firstOccur (rs.map (fun r => r.userId)))).map
    (fun uid => (excelDisplayOf rs uid, countUser rs uid))

/-! ### Chat chunking -/

/-- `len('\n'.join(buf))`. -/
def joinLen : List (List Char) → Nat
  | [] => 0
  | [x] => x.length
  | x :: y :: xs => x.length + 1 + joinLen (y :: xs)

/-- The chunking loop of `today_stats_handler` (flush guarded by a non-empty
buffer, overflow condition checked before appending). Chunks are kept as lists
of whole lines. -/
def chunkStatsAux : List (List Char) → List (List Char) → List (List (List Char))
  | buf, [] => if buf = [] then [] else [buf]
  | buf, p :: ps =>
    if joinLen buf + p.length + 1 > 4000 then
      if buf = [] then chunkStatsAux [p] ps else buf :: chunkStatsAux [p] ps
    else chunkStatsAux (buf ++ [p]) ps

def chunkStats (lines : List (List Char)) : List (List (List Char)) :=
  chunkStatsAux [] lines

/-- The chunking loop of `service_report_handler` (condition on
`'\n'.join(buffer + [line])`, flush not guarded). -/
def chunkReportAux : List (List Char) → List (List Char) → List (List (List Char))
  | buf, [] => if buf = [] then [] else [buf]
  | buf, l :: ls =>
    if joinLen (buf ++ [l]) > 4000 then buf :: chunkReportAux [l] ls
    else chunkReportAux (buf ++ [l]) ls

def chunkReport (lines : List (List Char)) : List (List (List Char)) :=
  chunkReportAux [] lines

/-! ### Report operations over a fetched window -/

inductive ReportOutcome (α : Type) where
  | emptyNotice : ReportOutcome α
  | report : α → ReportOutcome α
deriving DecidableEq, Repr

def serviceCountLine (s : Service) (n : Nat) : List Char :=
  "  - ".data ++ serviceName s ++ ": ".data ++ natDigits n ++ " шт.".data

def userBlock (e : List Char × List (Service × Nat) × Nat) : List (List Char) :=
  (e.1 ++ " - всего: ".data ++ natDigits e.2.2 ++ " шт.".data) ::
    e.2.1.map (fun p => serviceCountLine p.1 p.2)

def totalsBlock (rs : List AggRec) : List (List Char) :=
  "Итог по сервисам:".data ::
    (serviceTotalsSummary rs).map
      (fun p => serviceName p.1 ++ ": ".data ++ natDigits p.2 ++ " шт.".data)

/-- `response_parts` of `today_stats_handler`. -/
def statsLines (rs : List AggRec) : List (List Char) :=
  "Статистика за смену:".data :: ((chatSummary rs).flatMap userBlock ++ totalsBlock rs)

/-- `today_stats_handler` after the fetch: empty window → notice, otherwise the
chunked statistics text. -/
def today_stats_output (rs : List AggRec) : ReportOutcome (List (List (List Char))) :=
  if rs = [] then .emptyNotice else .report (chunkStats (statsLines rs))

/-- The workbook of `create_excel_report`, restricted to the data it tabulates:
the raw rows and the per-user totals sheet. -/
structure ExcelReport where
  allData : List AggRec
  totals : List (List Char × Nat)
deriving DecidableEq, Repr

def create_excel_report (rs : List AggRec) : ExcelReport :=
  ⟨rs, excelUserTotals rs⟩

/-- `export_excel_handler` after the fetch. -/
def export_excel_output (rs : List AggRec) : ReportOutcome ExcelReport :=
  if rs = [] then .emptyNotice else .report (create_excel_report rs)

/-- `send_scheduled_report` after the fetch. -/
def send_scheduled_report_output (rs : List AggRec) : ReportOutcome ExcelReport :=
  if rs = [] then .emptyNotice else .report (create_excel_report rs)

/-! ## Shift-window claims -/

/-- C4: at 06:59 the calculator reports the morning window as not yet started;
at 07:00 exactly the in-progress morning window 07:00–15:00; at 23:30 the
evening window; and at 01:00 the window from the previous day's 15:00 to the
current day's 04:00 labeled as the evening shift including night hours
(`d` is the current civil day, minute `m` of day `d` being `d * 1440 + m`). -/
theorem c4_shift_window_boundaries (d : Nat) (hd : 1 ≤ d) :
    get_shift_time_range (d * 1440 + 419) =
      ⟨d * 1440 + 420, d * 1440 + 900, "утреннюю смену (еще не началась)"⟩ ∧
    get_shift_time_range (d * 1440 + 420) =
      ⟨d * 1440 + 420, d * 1440 + 900, "утреннюю смену"⟩ ∧
    get_shift_time_range (d * 1440 + 1410) =
      ⟨d * 1440 + 900, d * 1440 + 1380, "вечернюю смену"⟩ ∧
    get_shift_time_range (d * 1440 + 60) =
      ⟨(d - 1) * 1440 + 900, d * 1440 + 240, "вечернюю смену (с учетом ночных часов)"⟩ := by
  refine ⟨?_, ?_, ?_, ?_⟩ <;>
    · simp only [get_shift_time_range]
      split_ifs <;> simp only [ShiftRange.mk.injEq] <;>
        first
          | exact ⟨by omega, by omega, trivial⟩
          | (exfalso; omega)

/-- C4, witness at day 1. -/
theorem c4_shift_window_boundaries_witness :
    get_shift_time_range (1 * 1440 + 420) =
      ⟨1 * 1440 + 420, 1 * 1440 + 900, "утреннюю смену"⟩ :=
  (c4_shift_window_boundaries 1 (by decide)).2.1

/-- C10, counterexample: at exactly 23:00 (minute 1380 of day 1) the returned
evening window's end equals "now", so the end is not strictly before the query
time as the claim states. -/
theorem c10_hour23_strictness_counterexample :
    23 ≤ (1 * 1440 + 1380) % 1440 / 60 ∧
    (get_shift_time_range (1 * 1440 + 1380)).stop = 1 * 1440 + 1380 ∧
    ¬ (get_shift_time_range (1 * 1440 + 1380)).stop < 1 * 1440 + 1380 := by
  decide

/-- C10 (amended): for every query time in hour 23 the calculator returns the
same day's 15:00–23:00 evening window, whose end is at or before "now" (strictly
before except at 23:00 exactly), so any record timestamped strictly after 23:00
and not later than "now" lies outside the returned window. -/
theorem c10_hour23_evening_window (now : Nat) (h : 23 ≤ now % 1440 / 60) :
    get_shift_time_range now =
      ⟨now / 1440 * 1440 + 900, now / 1440 * 1440 + 1380, "вечернюю смену"⟩ ∧
    now / 1440 * 1440 + 1380 ≤ now ∧
    (now % 1440 ≠ 1380 → now / 1440 * 1440 + 1380 < now) ∧
    ∀ t, now / 1440 * 1440 + 1380 < t → t ≤ now →
      ¬ ((get_shift_time_range now).start ≤ t ∧ t ≤ (get_shift_time_range now).stop) := by
  have hwin : get_shift_time_range now =
      ⟨now / 1440 * 1440 + 900, now / 1440 * 1440 + 1380, "вечернюю смену"⟩ := by
    simp only [get_shift_time_range]
    split_ifs <;> simp only [ShiftRange.mk.injEq] <;>
      first
        | exact ⟨by omega, by omega, trivial⟩
        | (exfalso; omega)
  refine ⟨hwin, by omega, by omega, ?_⟩
  intro t ht hle
  rw [hwin]
  simp only [not_and]
  intro _
  omega

/-- C10, witness at 23:30 of day 1. -/
theorem c10_hour23_evening_window_witness :
    get_shift_time_range (1 * 1440 + 1410) =
      ⟨1 * 1440 + 900, 1 * 1440 + 1380, "вечернюю смену"⟩ :=
  (c10_hour23_evening_window (1 * 1440 + 1410) (by decide)).1

/-! ## Empty-window reporting -/

/-- C8: with an empty record set every report operation (shift stats, Excel
export, scheduled report) yields the explicit "nothing in this window" outcome
and never builds a table or workbook; with a non-empty set each builds its
report. -/
theorem c8_empty_window_short_circuit :
    today_stats_output [] = .emptyNotice ∧
    export_excel_output [] = .emptyNotice ∧
    send_scheduled_report_output [] = .emptyNotice ∧
    ∀ rs : List AggRec, rs ≠ [] →
      today_stats_output rs = .report (chunkStats (statsLines rs)) ∧
      export_excel_output rs = .report (create_excel_report rs) ∧
      send_scheduled_report_output rs = .report (create_excel_report rs) := by
  refine ⟨rfl, rfl, rfl, fun rs h => ?_⟩
  simp [today_stats_output, export_excel_output, send_scheduled_report_output, h]

/-- C8, witness on a one-record window. -/
theorem c8_empty_window_short_circuit_witness :
    today_stats_output [⟨.jet, 1, [], ['N']⟩] =
      .report (chunkStats (statsLines [⟨.jet, 1, [], ['N']⟩])) :=
  (c8_empty_window_short_circuit.2.2.2 [⟨.jet, 1, [], ['N']⟩] (by decide)).1

/-! ## Display names -/

/-- C6, counterexample: for a user having both a username and a full name the
chat per-user summary shows "@username", not the full name, so the chat summary
does not prefer the full name as the claim states. -/
theorem c6_chat_display_counterexample :
    chatSummary [⟨.jet, 1, "u".data, "Full Name".data⟩] =
      [('@' :: "u".data, [(.jet, 1)], 1)] ∧
    '@' :: "u".data ≠ "Full Name".data := by decide

/-- C6 (amended): the Excel export's display name prefers the full name, falls
back to "@username", and falls back to the synthetic "ID: <n>" label; the chat
summary's display name instead prefers "@username" and falls back to the full
name, with no ID-based fallback. -/
theorem c6_display_name_fallbacks (uid : Nat) (username fullname : List Char) :
    (fullname ≠ [] → excelDisplay uid username fullname = fullname) ∧
    (fullname = [] → username ≠ [] → excelDisplay uid username fullname = '@' :: username) ∧
    (fullname = [] → username = [] →
      excelDisplay uid username fullname = "ID: ".data ++ natDigits uid) ∧
    (username ≠ [] → chatDisplay username fullname = '@' :: username) ∧
    (username = [] → chatDisplay username fullname = fullname) := by
  refine ⟨fun hf => ?_, fun hf hu => ?_, fun hf hu => ?_, fun hu => ?_, fun hu => ?_⟩
  · simp [excelDisplay, hf]
  · simp [excelDisplay, hf, hu]
  · simp [excelDisplay, hf, hu]
  · simp [chatDisplay, hu]
  · simp [chatDisplay, hu]

/-- C6, witness: a user with both names, a user with only a username, and a
user with neither. -/
theorem c6_display_name_fallbacks_witness :
    excelDisplay 7 "u".data "Full".data = "Full".data ∧
    excelDisplay 7 "u".data [] = '@' :: "u".data ∧
    excelDisplay 7 [] [] = "ID: ".data ++ natDigits 7 ∧
    chatDisplay "u".data "Full".data = '@' :: "u".data ∧
    chatDisplay [] "Full".data = "Full".data :=
  ⟨(c6_display_name_fallbacks 7 "u".data "Full".data).1 (by decide),
   (c6_display_name_fallbacks 7 "u".data []).2.1 rfl (by decide),
   (c6_display_name_fallbacks 7 [] []).2.2.1 rfl rfl,
   (c6_display_name_fallbacks 7 "u".data "Full".data).2.2.2.1 (by decide),
   (c6_display_name_fallbacks 7 [] "Full".data).2.2.2.2 rfl⟩

/-! ## Aggregation ordering -/

/-- C5, counterexample: the chat per-user summary depends on the record order —
swapping two records of different users swaps the emitted user entries, so the
output is neither sorted by display name nor order-independent. -/
theorem c5_chat_summary_order_dependent :
    chatSummary [⟨.jet, 2, "zz".data, "Zed".data⟩, ⟨.bolt, 1, "aa".data, "Ann".data⟩] ≠
    chatSummary [⟨.bolt, 1, "aa".data, "Ann".data⟩, ⟨.jet, 2, "zz".data, "Zed".data⟩] := by
  decide

/-- C5 (amended): the per-service totals are order-independent and sorted by
service name, each user's service counts are sorted by service name, and the
Excel per-user totals are sorted by the case-folded display name; the chat
summary however lists users in order of first appearance (see the
counterexample), not sorted by display name. -/
theorem c5_aggregation_sorted_outputs :
    (∀ rs rs' : List AggRec, rs.Perm rs' →
      serviceTotalsSummary rs = serviceTotalsSummary rs') ∧
    (∀ rs : List AggRec,
      ((serviceTotalsSummary rs).map (fun p => serviceName p.1)).Sorted (· < ·)) ∧
    (∀ (rs : List AggRec) (uid : Nat),
      ((userServiceCounts rs uid).map (fun p => serviceName p.1)).Sorted (· < ·)) ∧
    (∀ rs : List AggRec,
      ((excelUserTotals rs).map (fun p => p.1.map lowerChar)).Sorted (· ≤ ·)) := by
  have hnames : (servicesSorted.map serviceName).Sorted (· < ·) := by decide
  refine ⟨?_, ?_, ?_, ?_⟩
  · intro rs rs' hperm
    have h : countService rs = countService rs' := by
      funext s
      exact hperm.countP_eq _
    simp [serviceTotalsSummary, h]
  · intro rs
    have hsub :
        List.Sublist
          ((servicesSorted.filter (fun s => decide (0 < countService rs s))).map serviceName)
          (servicesSorted.map serviceName) :=
      (List.filter_sublist servicesSorted).map serviceName
    have : ((servicesSorted.filter (fun s => decide (0 < countService rs s))).map
        serviceName).Sorted (· < ·) := hnames.sublist hsub
    simpa [serviceTotalsSummary, List.map_map, Function.comp] using this
  · intro rs uid
    have hsub :
        List.Sublist
          ((servicesSorted.filter (fun s => decide (0 < countUserService rs uid s))).map
            serviceName)
          (servicesSorted.map serviceName) :=
      (List.filter_sublist servicesSorted).map serviceName
    have : ((servicesSorted.filter (fun s => decide (0 < countUserService rs uid s))).map
        serviceName).Sorted (· < ·) := hnames.sublist hsub
    simpa [userServiceCounts, List.map_map, Function.comp] using this
  · intro rs
    haveI hto : IsTotal Nat (fun a b => excelKey rs a ≤ excelKey rs b) :=
      ⟨fun a b => le_total (excelKey rs a) (excelKey rs b)⟩
    haveI htr : IsTrans Nat (fun a b => excelKey rs a ≤ excelKey rs b) :=
      ⟨fun _ _ _ h1 h2 => le_trans h1 h2⟩
    have hsorted :
        (List.insertionSort (fun a b => excelKey rs a ≤ excelKey rs b)
          (firstOccur (rs.map (fun r => r.userId)))).Sorted
            (fun a b => excelKey rs a ≤ excelKey rs b) :=
      List.sorted_insertionSort _ _
    have := List.Pairwise.map (fun uid => excelKey rs uid)
      (fun _ _ h => h) hsorted
    simpa [excelUserTotals, List.map_map, Function.comp, excelKey] using this

/-- C5, witness: totals of a permuted two-record list agree. -/
theorem c5_aggregation_sorted_outputs_witness :
    serviceTotalsSummary [⟨.jet, 2, "zz".data, "Zed".data⟩, ⟨.bolt, 1, "aa".data, "Ann".data⟩] =
    serviceTotalsSummary [⟨.bolt, 1, "aa".data, "Ann".data⟩, ⟨.jet, 2, "zz".data, "Zed".data⟩] :=
  c5_aggregation_sorted_outputs.1 _ _ (List.Perm.swap _ _ _)

/-! ## Chunking -/

theorem joinLen_append_one (buf : List (List Char)) (p : List Char) (h : buf ≠ []) :
    joinLen (buf ++ [p]) = joinLen buf + 1 + p.length := by
  induction buf with
  | nil => contradiction
  | cons x xs ih =>
    cases xs with
    | nil => simp [joinLen]
    | cons y ys =>
      have hys := ih (by simp)
      simp only [List.cons_append] at hys ⊢
      simp only [joinLen, hys]
      omega

theorem chunkStatsAux_spec (lines : List (List Char)) :
    ∀ buf : List (List Char), (∀ l ∈ lines, l.length ≤ 4000) → joinLen buf ≤ 4000 →
    (∀ c ∈ chunkStatsAux buf lines, joinLen c ≤ 4000) ∧
    (chunkStatsAux buf lines).flatten = buf ++ lines ∧
    (∀ c ∈ chunkStatsAux buf lines, c ≠ []) := by
  induction lines with
  | nil =>
    intro buf _ hb
    by_cases h : buf = [] <;> simp [chunkStatsAux, h, hb]
  | cons p ps ih =>
    intro buf hl hb
    have hp : p.length ≤ 4000 := hl p (by simp)
    have hps : ∀ l ∈ ps, l.length ≤ 4000 := fun l hm => hl l (by simp [hm])
    simp only [chunkStatsAux]
    split_ifs with hover hnil
    · have := ih [p] hps (by simp [joinLen, hp])
      subst hnil
      exact ⟨this.1, by simp [this.2.1], this.2.2⟩
    · have := ih [p] hps (by simp [joinLen, hp])
      refine ⟨?_, ?_, ?_⟩
      · intro c hc
        rcases List.mem_cons.mp hc with rfl | hc
        · exact hb
        · exact this.1 c hc
      · simp [this.2.1]
      · intro c hc
        rcases List.mem_cons.mp hc with rfl | hc
        · exact hnil
        · exact this.2.2 c hc
    · have hb' : joinLen (buf ++ [p]) ≤ 4000 := by
        by_cases h : buf = []
        · simp [h, joinLen, hp]
        · rw [joinLen_append_one buf p h]; omega
      have := ih (buf ++ [p]) hps hb'
      exact ⟨this.1, by simp [this.2.1], this.2.2⟩

theorem chunkReportAux_spec (lines : List (List Char)) :
    ∀ buf : List (List Char), (∀ l ∈ lines, l.length ≤ 4000) → joinLen buf ≤ 4000 →
    (∀ c ∈ chunkReportAux buf lines, joinLen c ≤ 4000) ∧
    (chunkReportAux buf lines).flatten = buf ++ lines ∧
    (∀ c ∈ chunkReportAux buf lines, c ≠ []) := by
  induction lines with
  | nil =>
    intro buf _ hb
    by_cases h : buf = [] <;> simp [chunkReportAux, h, hb]
  | cons l ls ih =>
    intro buf hl hb
    have hp : l.length ≤ 4000 := hl l (by simp)
    have hps : ∀ x ∈ ls, x.length ≤ 4000 := fun x hm => hl x (by simp [hm])
    simp only [chunkReportAux]
    split_ifs with hover
    · have hbne : buf ≠ [] := by
        intro h
        rw [h] at hover
        simp only [List.nil_append, joinLen] at hover
        omega
      have := ih [l] hps (by simp [joinLen, hp])
      refine ⟨?_, ?_, ?_⟩
      · intro c hc
        rcases List.mem_cons.mp hc with rfl | hc
        · exact hb
        · exact this.1 c hc
      · simp [this.2.1]
      · intro c hc
        rcases List.mem_cons.mp hc with rfl | hc
        · exact hbne
        · exact this.2.2 c hc
    · have hb' : joinLen (buf ++ [l]) ≤ 4000 := by omega
      have := ih (buf ++ [l]) hps hb'
      exact ⟨this.1, by simp [this.2.1], this.2.2⟩

/-- C7, counterexample: a single logical line of 4001 characters is sent as a
chunk of 4001 characters, exceeding the 4000-character limit the claim asserts
for every input. -/
theorem chunkStats_single_oversize (p : List Char) (hp : p.length = 4001) :
    chunkStats [p] = [[p]] ∧ joinLen [p] = 4001 := by
  have hne : p ≠ [] := by
    intro h
    rw [h] at hp
    simp at hp
  exact ⟨by simp [chunkStats, chunkStatsAux, joinLen, hp, hne], by simp [joinLen, hp]⟩

theorem c7_oversize_line_counterexample :
    (chunkStats [List.replicate 4001 'a']).map joinLen = [4001] ∧
    ¬ (∀ c ∈ chunkStats [List.replicate 4001 'a'], joinLen c ≤ 4000) := by
  obtain ⟨h1, h2⟩ :=
    chunkStats_single_oversize (List.replicate 4001 'a') (List.length_replicate 4001 'a')
  refine ⟨by rw [h1, List.map_singleton, h2], ?_⟩
  intro h
  have := h [List.replicate 4001 'a'] (by rw [h1]; exact List.mem_singleton_self _)
  omega

/-- C7 (amended): provided every logical line fits the 4000-character limit,
both chunking loops (shift stats and period report) produce chunks each within
the limit, never split a line, and concatenating the chunks reproduces the
original line sequence exactly; every sent chunk is non-empty, so joining the
chunks with the original newline separators restores the original text. -/
theorem c7_chunking_correct (lines : List (List Char))
    (hl : ∀ l ∈ lines, l.length ≤ 4000) :
    (∀ c ∈ chunkStats lines, joinLen c ≤ 4000) ∧
    (chunkStats lines).flatten = lines ∧
    (∀ c ∈ chunkStats lines, c ≠ []) ∧
    (∀ c ∈ chunkReport lines, joinLen c ≤ 4000) ∧
    (chunkReport lines).flatten = lines ∧
    (∀ c ∈ chunkReport lines, c ≠ []) := by
  have hs := chunkStatsAux_spec lines [] hl (by simp [joinLen])
  have hr := chunkReportAux_spec lines [] hl (by simp [joinLen])
  exact ⟨hs.1, by simpa using hs.2.1, hs.2.2, hr.1, by simpa using hr.2.1, hr.2.2⟩

/-- C7, witness on two short lines. -/
theorem c7_chunking_correct_witness :
    (chunkStats ["ab".data, "cd".data]).flatten = ["ab".data, "cd".data] ∧
    (chunkReport ["ab".data, "cd".data]).flatten = ["ab".data, "cd".data] :=
  ⟨(c7_chunking_correct ["ab".data, "cd".data] (by decide)).2.1,
   (c7_chunking_correct ["ab".data, "cd".data] (by decide)).2.2.2.2.1⟩

/-! ## Extraction engine claims -/

/-- C9: a bulk-shorthand match is removed from the text before the individual
pass even when its quantity is rejected, so the rejected quantity's digits
never become an individual record: `"bolt 1234"` yields zero records although
`"1234"` alone matches the four-digit Bolt pattern; in general, whenever
`batch_matches` is non-empty, the individual pass runs on the text with all
bulk matches substituted away. -/
theorem c9_rejected_bulk_digits_not_individual (toks : Nat → List Char)
    (nowStr : List Char) :
    process_scooter_text toks nowStr "bolt 1234".data = [] ∧
    ∀ text : List Char, batchMatches text ≠ [] →
      textForNumbers text = subAll matchBatch text := by
  refine ⟨rfl, fun text h => ?_⟩
  simp [textForNumbers, h]

/-- C9, witness on the concrete text. -/
theorem c9_rejected_bulk_digits_not_individual_witness :
    textForNumbers "bolt 1234".data = subAll matchBatch "bolt 1234".data :=
  (c9_rejected_bulk_digits_not_individual (fun _ => []) []).2 "bolt 1234".data (by decide)

/-- C3: `"whoosh 2 AB1234"` yields the two bulk Whoosh placeholders plus
exactly one individual Whoosh record for `AB1234` — three records in total —
because the matched bulk substring is removed before the individual pass. -/
theorem c3_bulk_then_individual_non_overlap (toks : Nat → List Char)
    (nowStr : List Char) :
    process_scooter_text toks nowStr "whoosh 2 AB1234".data =
      [placeholderRec toks nowStr .whoosh 0 1,
       placeholderRec toks nowStr .whoosh 1 2,
       ⟨"AB1234".data, .whoosh, nowStr⟩] ∧
    (process_scooter_text toks nowStr "whoosh 2 AB1234".data).length = 3 ∧
    textForNumbers "whoosh 2 AB1234".data = " AB1234".data := by
  refine ⟨rfl, ?_, rfl⟩
  rw [show process_scooter_text toks nowStr "whoosh 2 AB1234".data =
    [placeholderRec toks nowStr .whoosh 0 1,
     placeholderRec toks nowStr .whoosh 1 2,
     ⟨"AB1234".data, .whoosh, nowStr⟩] from rfl]
  rfl

/-! ### Decimal rendering and placeholder identifiers -/

theorem digitChar_isDigit (d : Nat) : (digitChar d).isDigit = true := by
  unfold digitChar
  split <;> decide

theorem digitChar_toNat (d : Nat) (h : d < 10) : (digitChar d).toNat - 48 = d := by
  interval_cases d <;> decide

theorem digitsToNat_append (xs : List Char) (c : Char) :
    digitsToNat (xs ++ [c]) = digitsToNat xs * 10 + (c.toNat - 48) := by
  simp [digitsToNat, List.foldl_append]

theorem digitsToNat_natDigitsGo (fuel n : Nat) (h : n < fuel) :
    digitsToNat (natDigitsGo fuel n) = n := by
  induction fuel generalizing n with
  | zero => omega
  | succ fuel ih =>
    rw [natDigitsGo]
    split_ifs with h10
    · simp [digitsToNat, digitChar_toNat n h10]
    · rw [digitsToNat_append, ih (n / 10) (by omega), digitChar_toNat (n % 10) (by omega)]
      omega

theorem digitsToNat_natDigits (n : Nat) : digitsToNat (natDigits n) = n :=
  digitsToNat_natDigitsGo (n + 1) n (by omega)

theorem natDigits_inj : Function.Injective natDigits := by
  intro a b h
  rw [← digitsToNat_natDigits a, ← digitsToNat_natDigits b, h]

theorem natDigitsGo_digits (fuel n : Nat) : ∀ c ∈ natDigitsGo fuel n, c.isDigit = true := by
  induction fuel generalizing n with
  | zero => simp [natDigitsGo]
  | succ fuel ih =>
    rw [natDigitsGo]
    split_ifs with h10
    · intro c hc
      rw [List.mem_singleton.mp hc]
      exact digitChar_isDigit n
    · intro c hc
      rcases List.mem_append.mp hc with hc | hc
      · exact ih (n / 10) c hc
      · rw [List.mem_singleton.mp hc]
        exact digitChar_isDigit _

theorem natDigits_no_underscore (n : Nat) : '_' ∉ natDigits n := by
  intro h
  have := natDigitsGo_digits (n + 1) n '_' h
  exact absurd this (by decide)

/-- Splitting a string at an underscore whose right part is underscore-free is
unambiguous. -/
theorem append_underscore_inj {t1 d1 t2 d2 : List Char}
    (hd1 : '_' ∉ d1) (hd2 : '_' ∉ d2)
    (h : t1 ++ '_' :: d1 = t2 ++ '_' :: d2) : t1 = t2 ∧ d1 = d2 := by
  induction t1 generalizing t2 with
  | nil =>
    cases t2 with
    | nil => simpa using h
    | cons c t2' =>
      simp only [List.nil_append, List.cons_append, List.cons.injEq] at h
      exact absurd (h.2 ▸ List.mem_append_right t2' (List.mem_cons_self '_' d2)) hd1
  | cons c t1' ih =>
    cases t2 with
    | nil =>
      simp only [List.nil_append, List.cons_append, List.cons.injEq] at h
      exact absurd (h.2.symm ▸ List.mem_append_right t1' (List.mem_cons_self '_' d1)) hd2
    | cons c2 t2' =>
      simp only [List.cons_append, List.cons.injEq] at h
      obtain ⟨he, h2⟩ := ih h.2
      exact ⟨by rw [h.1, he], h2⟩

theorem placeholderIdent_eq_parts (toks : Nat → List Char) (s : Service) (k j : Nat) :
    placeholderIdent toks s k j =
      (serviceNameUpper s ++ "_BATCH_".data) ++ (toks k ++ '_' :: natDigits j) := by
  have hu : ("_".data : List Char) = ['_'] := rfl
  simp [placeholderIdent, hu]

/-- Equal placeholder identifiers of one service come from the same `now()`
call result and the same batch index. -/
theorem placeholderIdent_inj (toks : Nat → List Char) {s : Service} {k1 j1 k2 j2 : Nat}
    (h : placeholderIdent toks s k1 j1 = placeholderIdent toks s k2 j2) :
    toks k1 = toks k2 ∧ j1 = j2 := by
  rw [placeholderIdent_eq_parts, placeholderIdent_eq_parts] at h
  have h' := List.append_cancel_left h
  obtain ⟨h1, h2⟩ :=
    append_underscore_inj (natDigits_no_underscore j1) (natDigits_no_underscore j2) h'
  exact ⟨h1, natDigits_inj h2⟩

theorem expandBatch_valid (toks : Nat → List Char) (nowStr : List Char) (ctr : Nat)
    (tok ds : List Char) (s : Service)
    (hlook : serviceAliasLookup (tok.map lowerChar) = some s)
    (hq : 0 < digitsToNat ds ∧ digitsToNat ds ≤ 200) :
    (expandBatch toks nowStr ctr (tok, ds)).1 =
      (List.range (digitsToNat ds)).map
        (fun i => placeholderRec toks nowStr s (ctr + i) (i + 1)) ∧
    (expandBatch toks nowStr ctr (tok, ds)).2 = ctr + digitsToNat ds := by
  constructor <;> simp [expandBatch, hlook, hq.1, hq.2]

theorem expandBatch_invalid (toks : Nat → List Char) (nowStr : List Char) (ctr : Nat)
    (tok ds : List Char)
    (hq : digitsToNat ds = 0 ∨ 200 < digitsToNat ds) :
    (expandBatch toks nowStr ctr (tok, ds)).1 = [] ∧
    (expandBatch toks nowStr ctr (tok, ds)).2 = ctr := by
  unfold expandBatch
  cases hl : serviceAliasLookup (tok.map lowerChar) with
  | none => exact ⟨rfl, rfl⟩
  | some s =>
    have : ¬ (0 < digitsToNat ds ∧ digitsToNat ds ≤ 200) := by omega
    simp [this]

theorem expandBatch_valid_idents_nodup (toks : Nat → List Char) (nowStr : List Char)
    (ctr : Nat) (tok ds : List Char) (s : Service)
    (hlook : serviceAliasLookup (tok.map lowerChar) = some s)
    (hq : 0 < digitsToNat ds ∧ digitsToNat ds ≤ 200) :
    ((expandBatch toks nowStr ctr (tok, ds)).1.map (fun r => r.ident)).Nodup := by
  rw [(expandBatch_valid toks nowStr ctr tok ds s hlook hq).1, List.map_map]
  refine List.Nodup.map_on ?_ (List.nodup_range _)
  intro i _ j _ hij
  simp only [Function.comp, placeholderRec] at hij
  have := (placeholderIdent_inj toks hij).2
  omega

/-- C2: for every bulk-shorthand entry whose token resolves to a service, a
quantity `q` with `0 < q ≤ 200` yields exactly `q` placeholder records — all of
that service, all carrying the message's shared timestamp, with pairwise
distinct identifiers of the placeholder form — while `q = 0` or `q > 200`
yields none; concretely `"whoosh 5"` produces exactly 5 Whoosh records with one
timestamp and distinct identifiers, `"jet 0"` and `"jet 201"` produce zero
records, and `"jet 200"` produces exactly 200. -/
theorem c2_bulk_expansion_exactness (toks : Nat → List Char) (nowStr : List Char) :
    (∀ (ctr : Nat) (tok ds : List Char) (s : Service),
      serviceAliasLookup (tok.map lowerChar) = some s →
      (0 < digitsToNat ds ∧ digitsToNat ds ≤ 200 →
        (expandBatch toks nowStr ctr (tok, ds)).1 =
          (List.range (digitsToNat ds)).map
            (fun i => placeholderRec toks nowStr s (ctr + i) (i + 1)) ∧
        (expandBatch toks nowStr ctr (tok, ds)).1.length = digitsToNat ds ∧
        (∀ r ∈ (expandBatch toks nowStr ctr (tok, ds)).1,
          r.service = s ∧ r.ts = nowStr) ∧
        ((expandBatch toks nowStr ctr (tok, ds)).1.map (fun r => r.ident)).Nodup) ∧
      (digitsToNat ds = 0 ∨ 200 < digitsToNat ds →
        (expandBatch toks nowStr ctr (tok, ds)).1 = [])) ∧
    (process_scooter_text toks nowStr "whoosh 5".data).length = 5 ∧
    (∀ r ∈ process_scooter_text toks nowStr "whoosh 5".data,
      r.service = .whoosh ∧ r.ts = nowStr) ∧
    ((process_scooter_text toks nowStr "whoosh 5".data).map (fun r => r.ident)).Nodup ∧
    process_scooter_text toks nowStr "jet 0".data = [] ∧
    process_scooter_text toks nowStr "jet 201".data = [] ∧
    (process_scooter_text toks nowStr "jet 200".data).length = 200 := by
  have hw5 : process_scooter_text toks nowStr "whoosh 5".data =
      (expandBatch toks nowStr 0 ("whoosh".data, "5".data)).1 ++ [] ++ [] := rfl
  have hlookw : serviceAliasLookup ("whoosh".data.map lowerChar) = some .whoosh := by decide
  have hq5 : 0 < digitsToNat "5".data ∧ digitsToNat "5".data ≤ 200 := by decide
  refine ⟨?_, rfl, ?_, ?_, rfl, rfl, rfl⟩
  · intro ctr tok ds s hlook
    constructor
    · intro hq
      obtain ⟨heq, -⟩ := expandBatch_valid toks nowStr ctr tok ds s hlook hq
      refine ⟨heq, ?_, ?_, expandBatch_valid_idents_nodup toks nowStr ctr tok ds s hlook hq⟩
      · simp [heq]
      · intro r hr
        rw [heq] at hr
        obtain ⟨i, -, rfl⟩ := List.mem_map.mp hr
        exact ⟨rfl, rfl⟩
    · intro hq
      exact (expandBatch_invalid toks nowStr ctr tok ds hq).1
  · intro r hr
    rw [hw5] at hr
    simp only [List.append_nil] at hr
    rw [(expandBatch_valid toks nowStr 0 "whoosh".data "5".data .whoosh hlookw hq5).1] at hr
    obtain ⟨i, -, rfl⟩ := List.mem_map.mp hr
    exact ⟨rfl, rfl⟩
  · rw [hw5]
    simp only [List.append_nil]
    exact expandBatch_valid_idents_nodup toks nowStr 0 "whoosh".data "5".data .whoosh hlookw hq5

/-- C2, witness: the general bulk-entry part applied to the `"jet 200"` token
with quantity 200 (accepted) and quantity 201 (rejected). -/
theorem c2_bulk_expansion_exactness_witness :
    ((expandBatch (fun _ => []) [] 0 ("jet".data, "200".data)).1.length = 200) ∧
    (expandBatch (fun _ => []) [] 0 ("jet".data, "201".data)).1 = [] := by
  have h := (c2_bulk_expansion_exactness (fun _ => []) []).1
  exact ⟨((h 0 "jet".data "200".data .jet (by decide)).1 (by decide)).2.1,
         (h 0 "jet".data "201".data .jet (by decide)).2 (by decide)⟩

/-! ### Character content of individual-pattern captures -/

/-- Characters an individual identifier capture can contain: digits, the
letters of the Whoosh class, and the Jet dash. -/
def allowedChar (c : Char) : Prop :=
  c.isDigit = true ∨ isWhooshLetter c = true ∨ c = '-'

theorem scanAux_mem {α : Type} (m : List Char → Option (α × Nat)) (P : α → Prop)
    (hm : ∀ cs a n, m cs = some (a, n) → P a) :
    ∀ (fuel : Nat) (w : Bool) (cs : List Char), ∀ a ∈ scanAux m fuel w cs, P a := by
  intro fuel
  induction fuel with
  | zero =>
    intro w cs a ha
    simp [scanAux] at ha
  | succ fuel ih =>
    intro w cs a ha
    cases cs with
    | nil => simp [scanAux] at ha
    | cons c rest =>
      simp only [scanAux] at ha
      split at ha
      case h_1 an heq =>
        rcases List.mem_cons.mp ha with rfl | ha
        · cases hw : w with
          | true => rw [hw] at heq; simp at heq
          | false =>
            rw [hw] at heq
            simp only [Bool.false_eq_true, if_false] at heq
            exact hm (c :: rest) an.1 an.2 (by rw [heq])
        · exact ih _ _ a ha
      case h_2 => exact ih _ _ a ha

theorem takeDigits_digits :
    ∀ (k : Nat) (cs d rest : List Char), takeDigits k cs = some (d, rest) →
      ∀ c ∈ d, c.isDigit = true := by
  intro k
  induction k with
  | zero =>
    intro cs d rest h c hc
    simp only [takeDigits, Option.some.injEq, Prod.mk.injEq] at h
    rw [← h.1] at hc
    simp at hc
  | succ k ih =>
    intro cs d rest h c hc
    cases cs with
    | nil => simp [takeDigits] at h
    | cons x cs' =>
      simp only [takeDigits] at h
      split_ifs at h with hd
      · cases ht : takeDigits k cs' with
        | none => rw [ht] at h; simp at h
        | some p =>
          rw [ht] at h
          simp at h
          rw [← h.1] at hc
          rcases List.mem_cons.mp hc with rfl | hc
          · exact hd
          · exact ih cs' p.1 p.2 (by rw [ht]) c hc

theorem matchYandex_allowed (cs a : List Char) (n : Nat)
    (h : matchYandex cs = some (a, n)) : ∀ c ∈ a, allowedChar c := by
  intro c hc
  simp only [matchYandex, Option.bind_eq_some] at h
  obtain ⟨p, hp, hf⟩ := h
  split_ifs at hf with hb
  · simp only [Option.some.injEq, Prod.mk.injEq] at hf
    exact Or.inl (takeDigits_digits 8 cs p.1 p.2 (by rw [hp]) c (hf.1 ▸ hc))

theorem matchBolt_allowed (cs a : List Char) (n : Nat)
    (h : matchBolt cs = some (a, n)) : ∀ c ∈ a, allowedChar c := by
  intro c hc
  simp only [matchBolt, Option.bind_eq_some] at h
  obtain ⟨p, hp, hf⟩ := h
  split_ifs at hf with hb
  · simp only [Option.some.injEq, Prod.mk.injEq] at hf
    exact Or.inl (takeDigits_digits 4 cs p.1 p.2 (by rw [hp]) c (hf.1 ▸ hc))

theorem matchJetDash_allowed (cs a : List Char) (n : Nat)
    (h : matchJetDash cs = some (a, n)) : ∀ c ∈ a, allowedChar c := by
  intro c hc
  simp only [matchJetDash, Option.bind_eq_some] at h
  obtain ⟨p1, hp1, h⟩ := h
  split at h
  next rest2 heq2 =>
    simp only [Option.bind_eq_some] at h
    obtain ⟨p2, hp2, h⟩ := h
    split_ifs at h with hb
    · simp only [Option.some.injEq, Prod.mk.injEq] at h
      rw [← h.1] at hc
      rcases List.mem_append.mp hc with hc | hc
      · exact Or.inl (takeDigits_digits 3 cs p1.1 p1.2 (by rw [hp1]) c hc)
      · rcases List.mem_cons.mp hc with rfl | hc
        · exact Or.inr (Or.inr rfl)
        · exact Or.inl (takeDigits_digits 3 rest2 p2.1 p2.2 (by rw [hp2]) c hc)
  next => simp at h

theorem matchJet_allowed (cs a : List Char) (n : Nat)
    (h : matchJet cs = some (a, n)) : ∀ c ∈ a, allowedChar c := by
  intro c hc
  simp only [matchJet] at h
  split at h
  next p heq =>
    split_ifs at h with hb
    · simp only [Option.some.injEq, Prod.mk.injEq] at h
      exact Or.inl (takeDigits_digits 6 cs p.1 p.2 (by rw [heq]) c (h.1 ▸ hc))
    · exact matchJetDash_allowed cs a n h c hc
  next => exact matchJetDash_allowed cs a n h c hc

theorem matchWhoosh_allowed (cs a : List Char) (n : Nat)
    (h : matchWhoosh cs = some (a, n)) : ∀ c ∈ a, allowedChar c := by
  intro c hc
  simp only [matchWhoosh] at h
  split at h
  next c1 c2 rest =>
    split_ifs at h with hw
    · simp only [Option.bind_eq_some] at h
      obtain ⟨p, hp, h⟩ := h
      split_ifs at h with hb
      · simp only [Option.some.injEq, Prod.mk.injEq] at h
        rw [← h.1] at hc
        obtain ⟨hw1, hw2⟩ := (Bool.and_eq_true _ _).mp hw
        rcases List.mem_cons.mp hc with rfl | hc
        · exact Or.inr (Or.inl hw1)
        · rcases List.mem_cons.mp hc with rfl | hc
          · exact Or.inr (Or.inl hw2)
          · exact Or.inl (takeDigits_digits 4 rest p.1 p.2 (by rw [hp]) c hc)
  next => simp at h

theorem servicePatterns_caps_allowed :
    ∀ sp ∈ servicePatterns, ∀ (text : List Char), ∀ cap ∈ findAll sp.2 text,
      ∀ c ∈ cap, allowedChar c := by
  intro sp hsp text cap hcap
  simp only [servicePatterns, List.mem_cons, List.not_mem_nil, or_false] at hsp
  rcases hsp with rfl | rfl | rfl | rfl
  · exact scanAux_mem matchYandex (fun a => ∀ c ∈ a, allowedChar c)
      (fun cs a n h => matchYandex_allowed cs a n h) _ _ _ cap hcap
  · exact scanAux_mem matchWhoosh (fun a => ∀ c ∈ a, allowedChar c)
      (fun cs a n h => matchWhoosh_allowed cs a n h) _ _ _ cap hcap
  · exact scanAux_mem matchJet (fun a => ∀ c ∈ a, allowedChar c)
      (fun cs a n h => matchJet_allowed cs a n h) _ _ _ cap hcap
  · exact scanAux_mem matchBolt (fun a => ∀ c ∈ a, allowedChar c)
      (fun cs a n h => matchBolt_allowed cs a n h) _ _ _ cap hcap

theorem upperChar_ne_underscore {c : Char} (h : c ≠ '_') : upperChar c ≠ '_' := by
  unfold upperChar
  cases hf : casePairs.find? (fun p => p.1 == c) with
  | none => exact h
  | some p =>
    have hp := List.mem_of_find?_eq_some hf
    have hall : ∀ q ∈ casePairs, q.2 ≠ '_' := by decide
    exact hall p hp

theorem normalizeId_no_underscore (cap : List Char)
    (hcap : ∀ c ∈ cap, allowedChar c) : '_' ∉ normalizeId cap := by
  intro h
  simp only [normalizeId, List.mem_map] at h
  obtain ⟨c, hc, hu⟩ := h
  rw [List.mem_filter] at hc
  obtain ⟨hcm, -⟩ := hc
  have hne : c ≠ '_' := by
    rcases hcap c hcm with hd | hl | hdash
    · intro he
      rw [he] at hd
      exact absurd hd (by decide)
    · intro he
      rw [he] at hl
      exact absurd hl (by decide)
    · rw [hdash]
      decide
  exact upperChar_ne_underscore hne hu

/-! ### Deduplication invariants of the two passes -/

/-- The `(identifier, service)` view of a record. -/
def identService (r : ScooterRec) : List Char × Service := (r.ident, r.service)

theorem addNumsAux_inv (nowStr : List Char) (s : Service) :
    ∀ (nums : List (List Char)) (st : List ScooterRec × List (List Char)),
      (st.1.map (fun r => r.ident)).Nodup → (∀ r ∈ st.1, r.ident ∈ st.2) →
      ((addNumsAux nowStr s nums st).1.map (fun r => r.ident)).Nodup ∧
        ∀ r ∈ (addNumsAux nowStr s nums st).1, r.ident ∈ (addNumsAux nowStr s nums st).2 := by
  intro nums
  induction nums with
  | nil =>
    intro st h1 h2
    exact ⟨h1, h2⟩
  | cons num nums ih =>
    intro st h1 h2
    simp only [addNumsAux]
    split_ifs with hmem
    · exact ih st h1 h2
    · apply ih
      · rw [List.map_append, List.nodup_append]
        refine ⟨h1, by simp, ?_⟩
        intro x hx
        obtain ⟨r, hr, rfl⟩ := List.mem_map.mp hx
        simp only [List.map_cons, List.map_nil, List.mem_singleton]
        intro he
        exact hmem (he ▸ h2 r hr)
      · intro r hr
        rcases List.mem_append.mp hr with hr | hr
        · exact List.mem_append_left _ (h2 r hr)
        · rw [List.mem_singleton.mp hr]
          exact List.mem_append_right _ (by simp)

theorem individualPassAux_inv (nowStr : List Char) :
    ∀ (ps : List (Service × (List Char → Option (List Char × Nat))))
      (text : List Char) (st : List ScooterRec × List (List Char)),
      (st.1.map (fun r => r.ident)).Nodup → (∀ r ∈ st.1, r.ident ∈ st.2) →
      ((individualPassAux nowStr ps text st).1.map (fun r => r.ident)).Nodup := by
  intro ps
  induction ps with
  | nil =>
    intro text st h1 _
    exact h1
  | cons sp ps ih =>
    intro text st h1 h2
    simp only [individualPassAux]
    obtain ⟨h1', h2'⟩ := addNumsAux_inv nowStr sp.1 (findAll sp.2 text) st h1 h2
    exact ih text _ h1' h2'

theorem individualPass_idents_nodup (nowStr text : List Char) :
    ((individualPass nowStr text).map (fun r => r.ident)).Nodup :=
  individualPassAux_inv nowStr servicePatterns text ([], []) (by simp) (by simp)

theorem addNumsAux_ident_prop (nowStr : List Char) (s : Service) (Q : List Char → Prop) :
    ∀ (nums : List (List Char)) (st : List ScooterRec × List (List Char)),
      (∀ r ∈ st.1, Q r.ident) → (∀ num ∈ nums, Q (normalizeId num)) →
      ∀ r ∈ (addNumsAux nowStr s nums st).1, Q r.ident := by
  intro nums
  induction nums with
  | nil =>
    intro st h1 _
    exact h1
  | cons num nums ih =>
    intro st h1 h2
    simp only [addNumsAux]
    split_ifs with hmem
    · exact ih st h1 (fun x hx => h2 x (by simp [hx]))
    · apply ih
      · intro r hr
        rcases List.mem_append.mp hr with hr | hr
        · exact h1 r hr
        · rw [List.mem_singleton.mp hr]
          exact h2 num (by simp)
      · exact fun x hx => h2 x (by simp [hx])

theorem individualPassAux_ident_prop (nowStr : List Char) (Q : List Char → Prop) :
    ∀ (ps : List (Service × (List Char → Option (List Char × Nat))))
      (text : List Char) (st : List ScooterRec × List (List Char)),
      (∀ r ∈ st.1, Q r.ident) →
      (∀ sp ∈ ps, ∀ cap ∈ findAll sp.2 text, Q (normalizeId cap)) →
      ∀ r ∈ (individualPassAux nowStr ps text st).1, Q r.ident := by
  intro ps
  induction ps with
  | nil =>
    intro text st h1 _
    exact h1
  | cons sp ps ih =>
    intro text st h1 h2
    simp only [individualPassAux]
    apply ih
    · exact addNumsAux_ident_prop nowStr sp.1 Q (findAll sp.2 text) st h1
        (fun cap hcap => h2 sp (by simp) cap hcap)
    · exact fun sp' hsp' => h2 sp' (by simp [hsp'])

theorem individualPass_no_underscore (nowStr text : List Char) :
    ∀ r ∈ individualPass nowStr text, '_' ∉ r.ident := by
  apply individualPassAux_ident_prop nowStr (fun id => '_' ∉ id) servicePatterns text ([], [])
  · simp
  · intro sp hsp cap hcap
    exact normalizeId_no_underscore cap (servicePatterns_caps_allowed sp hsp text cap hcap)

/-! ### Structure of the bulk pass -/

theorem expandBatch_ctr_le (toks : Nat → List Char) (nowStr : List Char) (ctr : Nat)
    (m : List Char × List Char) : ctr ≤ (expandBatch toks nowStr ctr m).2 := by
  unfold expandBatch
  split
  · omega
  · dsimp only
    split_ifs <;> omega

theorem runBatchesAux_mem (toks : Nat → List Char) (nowStr : List Char) :
    ∀ (ms : List (List Char × List Char)) (ctr : Nat),
      ∀ r ∈ runBatchesAux toks nowStr ms ctr,
        ∃ s k j, ctr ≤ k ∧ r = placeholderRec toks nowStr s k (j + 1) := by
  intro ms
  induction ms with
  | nil =>
    intro ctr r hr
    simp [runBatchesAux] at hr
  | cons m ms ih =>
    intro ctr r hr
    obtain ⟨tok, ds⟩ := m
    simp only [runBatchesAux] at hr
    rcases List.mem_append.mp hr with hr | hr
    · cases hl : serviceAliasLookup (tok.map lowerChar) with
      | none =>
        rw [show (expandBatch toks nowStr ctr (tok, ds)).1 = [] by
          unfold expandBatch; rw [hl]] at hr
        simp at hr
      | some s =>
        by_cases hq : 0 < digitsToNat ds ∧ digitsToNat ds ≤ 200
        · rw [(expandBatch_valid toks nowStr ctr tok ds s hl hq).1] at hr
          obtain ⟨i, -, rfl⟩ := List.mem_map.mp hr
          exact ⟨s, ctr + i, i, by omega, rfl⟩
        · rw [(expandBatch_invalid toks nowStr ctr tok ds (by omega)).1] at hr
          simp at hr
    · obtain ⟨s, k, j, hk, hr⟩ := ih _ r hr
      exact ⟨s, k, j, le_trans (expandBatch_ctr_le toks nowStr ctr (tok, ds)) hk, hr⟩

theorem runBatchesAux_pairs_nodup (toks : Nat → List Char) (nowStr : List Char)
    (hinj : Function.Injective toks) :
    ∀ (ms : List (List Char × List Char)) (ctr : Nat),
      ((runBatchesAux toks nowStr ms ctr).map identService).Nodup := by
  intro ms
  induction ms with
  | nil =>
    intro ctr
    simp [runBatchesAux]
  | cons m ms ih =>
    intro ctr
    obtain ⟨tok, ds⟩ := m
    simp only [runBatchesAux, List.map_append]
    rw [List.nodup_append]
    refine ⟨?_, ih _, ?_⟩
    · cases hl : serviceAliasLookup (tok.map lowerChar) with
      | none =>
        rw [show (expandBatch toks nowStr ctr (tok, ds)).1 = [] by
          unfold expandBatch; rw [hl]]
        simp
      | some s =>
        by_cases hq : 0 < digitsToNat ds ∧ digitsToNat ds ≤ 200
        · rw [(expandBatch_valid toks nowStr ctr tok ds s hl hq).1, List.map_map]
          refine List.Nodup.map_on ?_ (List.nodup_range _)
          intro i _ j _ hij
          simp only [Function.comp, placeholderRec, identService, Prod.mk.injEq] at hij
          have := (placeholderIdent_inj toks hij.1).2
          omega
        · rw [(expandBatch_invalid toks nowStr ctr tok ds (by omega)).1]
          simp
    · intro x hx1 hx2
      obtain ⟨r1, hr1, rfl⟩ := List.mem_map.mp hx1
      obtain ⟨r2, hr2, hx⟩ := List.mem_map.mp hx2
      obtain ⟨s2, k2, j2, hk2, rfl⟩ := runBatchesAux_mem toks nowStr ms _ r2 hr2
      cases hl : serviceAliasLookup (tok.map lowerChar) with
      | none =>
        rw [show (expandBatch toks nowStr ctr (tok, ds)).1 = [] by
          unfold expandBatch; rw [hl]] at hr1
        simp at hr1
      | some s =>
        by_cases hq : 0 < digitsToNat ds ∧ digitsToNat ds ≤ 200
        · rw [(expandBatch_valid toks nowStr ctr tok ds s hl hq).1] at hr1
          obtain ⟨i, hi, rfl⟩ := List.mem_map.mp hr1
          rw [(expandBatch_valid toks nowStr ctr tok ds s hl hq).2] at hk2
          simp only [identService, placeholderRec, Prod.mk.injEq] at hx
          obtain ⟨hid, hs⟩ := hx
          subst hs
          have hk := hinj (placeholderIdent_inj toks hid.symm).1
          rw [List.mem_range] at hi
          omega
        · rw [(expandBatch_invalid toks nowStr ctr tok ds (by omega)).1] at hr1
          simp at hr1

theorem placeholderIdent_has_underscore (toks : Nat → List Char) (s : Service)
    (k j : Nat) : '_' ∈ placeholderIdent toks s k j := by
  rw [placeholderIdent_eq_parts]
  exact List.mem_append_left _ (List.mem_append_right _ (by decide))

/-- C1: in one extraction pass no two emitted records share the same
`(identifier, service)` pair (assuming the uniqueness tokens drawn from the
clock are pairwise distinct across the pass's `now()` calls); in particular a
message repeating the same individual identifier, such as
`"12345678 12345678"`, yields exactly one record for it. -/
theorem c1_no_duplicate_identifier_service_pairs (toks : Nat → List Char)
    (nowStr text : List Char) (hinj : Function.Injective toks) :
    ((process_scooter_text toks nowStr text).map identService).Nodup ∧
    process_scooter_text toks nowStr "12345678 12345678".data =
      [⟨"12345678".data, .yandex, nowStr⟩] := by
  refine ⟨?_, rfl⟩
  unfold process_scooter_text
  rw [List.map_append, List.nodup_append]
  refine ⟨runBatchesAux_pairs_nodup toks nowStr hinj _ 0, ?_, ?_⟩
  · have h := individualPass_idents_nodup nowStr (textForNumbers text)
    have he : (individualPass nowStr (textForNumbers text)).map (fun r => r.ident) =
        ((individualPass nowStr (textForNumbers text)).map identService).map Prod.fst := by
      rw [List.map_map]
      rfl
    rw [he] at h
    exact h.of_map _
  · intro x hx1 hx2
    obtain ⟨r1, hr1, rfl⟩ := List.mem_map.mp hx1
    obtain ⟨r2, hr2, hx⟩ := List.mem_map.mp hx2
    obtain ⟨s, k, j, -, rfl⟩ := runBatchesAux_mem toks nowStr _ 0 r1 hr1
    have hno := individualPass_no_underscore nowStr (textForNumbers text) r2 hr2
    have hid : r2.ident = (placeholderRec toks nowStr s k (j + 1)).ident :=
      congrArg Prod.fst hx
    rw [hid] at hno
    exact hno (placeholderIdent_has_underscore toks s k (j + 1))

/-- C1, witness: a message with two bulk entries of one service and a repeated
individual identifier, under an injective token stream. -/
theorem c1_no_duplicate_identifier_service_pairs_witness :
    ((process_scooter_text (fun k => List.replicate k 'a') []
        "w 2 w 2 12345678 12345678".data).map identService).Nodup :=
  (c1_no_duplicate_identifier_service_pairs (fun k => List.replicate k 'a') []
    "w 2 w 2 12345678 12345678".data
    (fun a b h => by simpa using congrArg List.length h)).1

end Sharing


